import Mathlib

/-!
Shallow embedding of the usage-aggregation store of perses/metrics-usage.

The embedding follows `database/database.go`, `pkg/api/v1/metric_usage.go`
and `source/metric/endpoint.go`.  Go maps are embedded as functions
`String → Option _` (presence of the key = `isSome`), the `set.Set[T]`
type of the external `perses/common/set` library as characteristic
functions `T → Bool` (its documented semantics: a value set with `Add`,
`Remove`, `Contains`, and `Merge` = union), and the four queue consumers
as functions applying one queue message to the store state.
-/

namespace MetricsUsage

/-- `set.Set[T]` of the external perses/common library, as a characteristic
function.  The library is a `map[T]struct{}` wrapper; `Merge` is union. -/
def GoSet (α : Type) := α → Bool

def GoSet.empty {α : Type} : GoSet α := fun _ => false

def GoSet.add {α : Type} [DecidableEq α] (s : GoSet α) (x : α) : GoSet α :=
  fun y => if y = x then true else s y

def GoSet.remove {α : Type} [DecidableEq α] (s : GoSet α) (x : α) : GoSet α :=
  fun y => if y = x then false else s y

def GoSet.merge {α : Type} (a b : GoSet α) : GoSet α := fun y => a y || b y

def GoSet.ofList {α : Type} [DecidableEq α] (l : List α) : GoSet α :=
  fun y => l.contains y

/-- `RuleUsage` of pkg/api/v1/metric_usage.go. -/
structure RuleUsage where
  promLink : String
  groupName : String
  name : String
  expression : String
deriving DecidableEq

/-- `DashboardUsage` of pkg/api/v1/metric_usage.go. -/
structure DashboardUsage where
  id : String
  name : String
  url : String
deriving DecidableEq

/-- `MetricUsage` of pkg/api/v1/metric_usage.go: three facet sets. -/
structure MetricUsage where
  dashboards : GoSet DashboardUsage
  recordingRules : GoSet RuleUsage
  alertRules : GoSet RuleUsage

/-- `MergeUsage` of pkg/api/v1/metric_usage.go.  The Go arguments are
nullable pointers, embedded as `Option MetricUsage`. -/
def MergeUsage (old new : Option MetricUsage) : Option MetricUsage :=
  match old with
  | none => new
  | some o =>
    match new with
    | none => some o
    | some n =>
      some { dashboards := GoSet.merge o.dashboards n.dashboards
             alertRules := GoSet.merge o.alertRules n.alertRules
             recordingRules := GoSet.merge o.recordingRules n.recordingRules }

/-- `Metric` of pkg/api/v1/metric_usage.go.  Both fields are nullable in Go
(`set.Set` is a map type, `Usage` is a pointer). -/
structure Metric where
  labels : Option (GoSet String)
  usage : Option MetricUsage

/-!  A small regular-expression engine modelling the fragment of Go's
regexp package exercised by the patterns `generateRegexp` produces:
literal characters, the anchors `^` and `$`, the wildcard `.+` and
top-level alternation `|`.  Go finds the leftmost match and, at that
position, the backtracking-priority-first one (alternation prefers the
left branch, `.+` is greedy).  Every other regexp construct is treated
as a compilation failure by the model parser below. -/

/-- One atom of a regexp branch. -/
inductive RAtom where
  | lit (c : Char)
  | start
  | stop
  | anyPlus
deriving DecidableEq

/-- A regexp: an ordered alternation of branches, each a sequence of atoms. -/
structure RE where
  branches : List (List RAtom)
deriving DecidableEq

/-- Positions an atom can lead to from position `i` of `s`, in Go's
backtracking priority order (`.+` greedy: longest first). -/
def atomNexts (s : List Char) (a : RAtom) (i : Nat) : List Nat :=
  match a with
  | .lit c =>
    match s.get? i with
    | some c2 => if c2 = c then [i + 1] else []
    | none => []
  | .start => if i = 0 then [i] else []
  | .stop => if i = s.length then [i] else []
  | .anyPlus => (List.range' (i + 1) (s.length - i)).reverse

/-- End positions of a branch match starting at `i`, in priority order. -/
def branchEnds (s : List Char) (b : List RAtom) (i : Nat) : List Nat :=
  b.foldl (fun poss a => poss.flatMap (fun j => atomNexts s a j)) [i]

/-- The end of the preferred match of `re` at start position `i`, if any. -/
def reFirstEndAt (re : RE) (s : List Char) (i : Nat) : Option Nat :=
  (re.branches.flatMap (fun b => branchEnds s b i)).head?

/-- `re.MatchString(m)`: some match starts at some position of `s`. -/
def matchString (re : RE) (m : String) : Bool :=
  let s := m.data
  (List.range (s.length + 1)).any (fun i => (reFirstEndAt re s i).isSome)

/-- Leftmost match of `re` at a start position `≥ pos`, with fuel. -/
def firstMatchFrom (re : RE) (s : List Char) : Nat → Nat → Option (Nat × Nat)
  | _, 0 => none
  | pos, fuel + 1 =>
    match reFirstEndAt re s pos with
    | some e => some (pos, e)
    | none => if pos < s.length then firstMatchFrom re s (pos + 1) fuel else none

/-- Successive matches, Go `FindAll` style: continue from the end of a
non-empty match and one position past the start of an empty match, and
drop an empty match that starts exactly at the previous match's end
(the `prevMatchEnd` rule of Go's `allMatches`). -/
def findAllAux (re : RE) (s : List Char) :
    Nat → Option Nat → Nat → List (Nat × Nat)
  | _, _, 0 => []
  | pos, prevEnd, fuel + 1 =>
    match firstMatchFrom re s pos (s.length + 1 - pos) with
    | none => []
    | some (i, e) =>
      let rest := findAllAux re s (if i < e then e else i + 1) (some e) fuel
      if i = e && prevEnd = some i then rest else (i, e) :: rest

/-- `re.FindAllString(m, -1)` as the list of (start, end) spans. -/
def findAllSpans (re : RE) (m : String) : List (Nat × Nat) :=
  findAllAux re m.data 0 none (m.data.length + 2)

/-- `isMatching` of database/database.go: a full `MatchString` plus at
least one non-empty `FindAllString` match. -/
def isMatching (re : RE) (metric : String) : Bool :=
  if !matchString re metric then false
  else (findAllSpans re metric).any (fun span => span.1 < span.2)

/-- Characters the model regexp parser refuses (constructs of Go regexp
that `generateRegexp` output never needs; refusing them makes the model
report a compilation error instead of guessing Go's semantics). -/
def unsupportedRegexChar (c : Char) : Bool :=
  c = '(' || c = ')' || c = '[' || c = ']' ||
  c = Char.ofNat 123 || c = Char.ofNat 125 ||
  c = '*' || c = '+' || c = '?' || c = '\\'

/-- Parser from a pattern string to the model regexp. -/
def parseREAux : Nat → List Char → List RAtom → Option (List (List RAtom))
  | _, [], cur => some [cur.reverse]
  | 0, _ :: _, _ => none
  | fuel + 1, c :: rest, cur =>
    if c = '|' then
      (parseREAux fuel rest []).map (fun bs => cur.reverse :: bs)
    else if c = '^' then parseREAux fuel rest (.start :: cur)
    else if c = '$' then parseREAux fuel rest (.stop :: cur)
    else if c = '.' then
      match rest with
      | '+' :: rest2 => parseREAux fuel rest2 (.anyPlus :: cur)
      | _ => none
    else if unsupportedRegexChar c then none
    else parseREAux fuel rest (.lit c :: cur)

/-- `regexp.Compile` on the supported fragment. -/
def parseRE (pat : String) : Option RE :=
  (parseREAux (pat.data.length + 1) pat.data []).map RE.mk

/-- The character class `[a-zA-Z0-9_:]` of `replaceVariableRegexp`. -/
def isVarChar (c : Char) : Bool :=
  (('a' ≤ c && c ≤ 'z') || ('A' ≤ c && c ≤ 'Z') ||
   ('0' ≤ c && c ≤ '9') || c = '_' || c = ':')

/-- After an opening brace: consume one-or-more var chars then the closing
brace, returning the remainder on success. -/
def takeVarBody : List Char → Option (List Char)
  | [] => none
  | c :: rest =>
    if isVarChar c then
      let rec go : List Char → Option (List Char)
        | [] => none
        | c2 :: rest2 =>
          if isVarChar c2 then go rest2
          else if c2 = Char.ofNat 125 then some rest2
          else none
      go rest
    else none

/-- `replaceVariableRegexp.ReplaceAllString(s, "#")`: replace every
leftmost, non-overlapping occurrence of the variable pattern by `#`. -/
def replaceVariables : Nat → List Char → List Char
  | 0, _ => []
  | _, [] => []
  | fuel + 1, c :: rest =>
    if c = '$' then
      match rest with
      | c2 :: rest2 =>
        if c2 = Char.ofNat 123 then
          match takeVarBody rest2 with
          | some rest3 => '#' :: replaceVariables fuel rest3
          | none => c :: replaceVariables fuel rest
        else c :: replaceVariables fuel rest
      | [] => [c]
    else c :: replaceVariables fuel rest

/-- `strings.ReplaceAll(s, [a, b], "#")`: leftmost, non-overlapping. -/
def replacePair (a b : Char) : Nat → List Char → List Char
  | 0, _ => []
  | _, [] => []
  | fuel + 1, c :: rest =>
    if c = a then
      match rest with
      | c2 :: rest2 =>
        if c2 = b then '#' :: replacePair a b fuel rest2
        else c :: replacePair a b fuel rest
      | [] => [c]
    else c :: replacePair a b fuel rest

/-- The collapse loop of `generateRegexp`: drop a char when both it and
the original previous char are `#`. -/
def collapseHashAux : Char → List Char → List Char
  | _, [] => []
  | prev, c :: rest =>
    if prev = '#' && c = '#' then collapseHashAux c rest
    else c :: collapseHashAux c rest

def collapseHash : List Char → List Char
  | [] => []
  | c :: rest => c :: collapseHashAux c rest

/-- `strings.ReplaceAll(s, "#", ".+")`. -/
def expandHash : List Char → List Char
  | [] => []
  | c :: rest => if c = '#' then '.' :: '+' :: expandHash rest
                 else c :: expandHash rest

/-- The pure string pipeline of `generateRegexp` in database/database.go:
returns the final anchored pattern string handed to `common.NewRegexp`,
or `none` when the partial metric name is unconstrained. -/
def generateRegexpString (partialMetricName : String) : Option String :=
  let s0 := replaceVariables (partialMetricName.data.length + 1)
              partialMetricName.data
  let s1 := replacePair '.' '+' (s0.length + 1) s0
  let s := replacePair '.' '*' (s1.length + 1) s1
  if s = ['#'] || s.length = 0 then none
  else
    let compileString := collapseHash s
    if compileString = ['#'] then none
    else some (String.mk ('^' :: expandHash compileString ++ ['$']))

/-- `generateRegexp` of database/database.go: `.ok none` is Go's
`(nil, nil)` (unconstrained pattern), `.error ()` a compile error. -/
def generateRegexp (partialMetricName : String) :
    Except Unit (Option RE) :=
  match generateRegexpString partialMetricName with
  | none => .ok none
  | some pat =>
    match parseRE pat with
    | some re => .ok (some re)
    | none => .error ()

/-- `PartialMetric` of pkg/api/v1/metric_usage.go.  All three fields are
nullable in Go. -/
structure PartialMetric where
  usage : Option MetricUsage
  matchingMetrics : Option (GoSet String)
  matchingRegexp : Option RE

/-- `Contains` on the (nullable) `MatchingMetrics` set. -/
def PartialMetric.containsMetric (pm : PartialMetric) (n : String) : Bool :=
  match pm.matchingMetrics with
  | none => false
  | some ms => ms n

/-- The mutable state of the `db` struct in database/database.go:
the three maps plus the absence counters and the eviction threshold.
Go maps are embedded as functions to `Option`; counter values are
`uint8`, kept as `Nat` with arithmetic mod 256.  The pending-usage
buffer `usage` is a Go map whose values are nullable pointers, hence
the nested `Option`. -/
structure DB where
  metrics : String → Option Metric
  metricLastTimeSeen : String → Option Nat
  threshold : Nat
  partialMetrics : String → Option PartialMetric
  usage : String → Option (Option MetricUsage)

/-- Point update of an embedded Go map. -/
def upd {α : Type} (m : String → Option α) (k : String) (v : Option α) :
    String → Option α :=
  fun k' => if k' = k then v else m k'

/-- The state `New` builds (in-memory database: all maps empty). -/
def initDB (threshold : Nat) : DB :=
  { metrics := fun _ => none
    metricLastTimeSeen := fun _ => none
    threshold := threshold
    partialMetrics := fun _ => none
    usage := fun _ => none }

/-- `GetMetric` of database/database.go. -/
def GetMetric (d : DB) (name : String) : Option Metric := d.metrics name

/-- `ListPendingUsage` of database/database.go (returns the buffer). -/
def ListPendingUsage (d : DB) : String → Option (Option MetricUsage) :=
  d.usage

/-- `deleteMetric` of database/database.go: remove the metric and its
counter, and scrub the name from every partial metric's matching set. -/
def deleteMetric (d : DB) (name : String) : DB :=
  { d with
    metrics := upd d.metrics name none
    metricLastTimeSeen := upd d.metricLastTimeSeen name none
    partialMetrics := fun p =>
      (d.partialMetrics p).map (fun pm =>
        if pm.containsMetric name then
          { pm with matchingMetrics :=
              pm.matchingMetrics.map (fun ms => ms.remove name) }
        else pm) }

/-- `DeleteMetric` of database/database.go: returns whether the name was
present, deleting it when it was. -/
def DeleteMetric (d : DB) (name : String) : Bool × DB :=
  if (d.metrics name).isSome then (true, deleteMetric d name)
  else (false, d)

/-- `matchPartialMetric` of database/database.go: compile the pattern and
seed the matching set by scanning the concrete-metric map with
`re.MatchString`. -/
def matchPartialMetric (d : DB) (partialMetricName : String) :
    Option RE × Option (GoSet String) :=
  match generateRegexp partialMetricName with
  | .error _ => (none, none)
  | .ok none => (none, none)
  | .ok (some re) =>
    (some re, some (fun m => (d.metrics m).isSome && matchString re m))

/-- Store a (re)compiled regexp in a partial metric, then add the metric
name to its matching set when `isMatching` accepts it (lines 346-357 of
database/database.go). -/
def applyReToPM (validMetric : String) (pm : PartialMetric)
    (reOpt : Option RE) : PartialMetric :=
  match reOpt with
  | none => { pm with matchingRegexp := none }
  | some re =>
    let pm1 := { pm with matchingRegexp := some re }
    if isMatching re validMetric then
      { pm1 with
        matchingMetrics :=
          some ((pm1.matchingMetrics.getD GoSet.empty).add validMetric) }
    else pm1

/-- The per-pattern body of `matchValidMetric`: lazily compile the cached
regexp (skipping the pattern on a compile error), then run the matching
step. -/
def matchValidMetricOne (validMetric : String) (metricName : String)
    (pm : PartialMetric) : PartialMetric :=
  match pm.matchingRegexp with
  | some re => applyReToPM validMetric pm (some re)
  | none =>
    match generateRegexp metricName with
    | .error _ => pm
    | .ok reOpt => applyReToPM validMetric pm reOpt

/-- `matchValidMetric` of database/database.go: run the incremental
matching step of every stored partial metric against a new metric name. -/
def matchValidMetric (d : DB) (validMetric : String) : DB :=
  { d with
    partialMetrics := fun p =>
      (d.partialMetrics p).map (matchValidMetricOne validMetric p) }

/-- The body of the per-name loop of `watchMetricsQueue`: create the
metric when missing (running the partial matching step and draining the
pending-usage buffer), then reset its absence counter. -/
def metricsStep (d : DB) (metricName : String) : DB :=
  let d1 :=
    if (d.metrics metricName).isSome then d
    else
      let da := { d with
        metrics := upd d.metrics metricName
          (some { labels := some GoSet.empty, usage := none }) }
      let db' := matchValidMetric da metricName
      match db'.usage metricName with
      | some buffered =>
        { db' with
          metrics := fun n =>
            if n = metricName then
              (db'.metrics n).map (fun m => { m with usage := buffered })
            else db'.metrics n
          usage := upd db'.usage metricName none }
      | none => db'
  { d1 with
    metricLastTimeSeen := upd d1.metricLastTimeSeen metricName (some 0) }

/-- The eviction pass at the end of `watchMetricsQueue`: delete every
metric whose counter reached the threshold (each deletion also scrubs
the partial metrics' matching sets, as `deleteMetric` does). -/
def evict (d : DB) : DB :=
  let gone : String → Bool := fun n =>
    match d.metricLastTimeSeen n with
    | some c => d.threshold ≤ c
    | none => false
  { d with
    metrics := fun n => if gone n then none else d.metrics n
    metricLastTimeSeen := fun n =>
      if gone n then none else d.metricLastTimeSeen n
    partialMetrics := fun p =>
      (d.partialMetrics p).map (fun pm =>
        { pm with matchingMetrics :=
            pm.matchingMetrics.map (fun ms =>
              fun n => if gone n then false else ms n) }) }

/-- One message of `watchMetricsQueue`: increment every absence counter
(uint8 arithmetic), process the batch names in order, then evict. -/
def watchMetricsQueue1 (d : DB) (metricsName : List String) : DB :=
  let d0 := { d with
    metricLastTimeSeen := fun n =>
      (d.metricLastTimeSeen n).map (fun c => (c + 1) % 256) }
  evict (metricsName.foldl metricsStep d0)

/-- One `(name, usage)` fact of `watchUsageQueue`: merge into the known
metric, or into the pending buffer. -/
def usageStep (d : DB) (fact : String × Option MetricUsage) : DB :=
  match d.metrics fact.1 with
  | some m =>
    { d with
      metrics := upd d.metrics fact.1
        (some { m with usage := MergeUsage m.usage fact.2 }) }
  | none =>
    { d with
      usage := upd d.usage fact.1
        (some (MergeUsage ((d.usage fact.1).join) fact.2)) }

/-- One message of `watchUsageQueue`. -/
def watchUsageQueue1 (d : DB) (data : List (String × Option MetricUsage)) :
    DB :=
  data.foldl usageStep d

/-- One `(pattern, usage)` fact of `watchPartialMetricsUsageQueue`:
create the partial metric (seeding its matching set) or merge usage. -/
def partialUsageStep (d : DB) (fact : String × Option MetricUsage) : DB :=
  match d.partialMetrics fact.1 with
  | none =>
    let seeded := matchPartialMetric d fact.1
    { d with
      partialMetrics := upd d.partialMetrics fact.1
        (some { usage := fact.2
                matchingMetrics := seeded.2
                matchingRegexp := seeded.1 }) }
  | some pm =>
    { d with
      partialMetrics := upd d.partialMetrics fact.1
        (some { pm with usage := MergeUsage pm.usage fact.2 }) }

/-- One message of `watchPartialMetricsUsageQueue`. -/
def watchPartialMetricsUsageQueue1 (d : DB)
    (data : List (String × Option MetricUsage)) : DB :=
  data.foldl partialUsageStep d

/-- One `(name, labels)` fact of `watchLabelsQueue`: create the metric
with the label set, or union the labels into the existing set. -/
def labelsStep (d : DB) (fact : String × List String) : DB :=
  match d.metrics fact.1 with
  | none =>
    { d with
      metrics := upd d.metrics fact.1
        (some { labels := some (GoSet.ofList fact.2), usage := none }) }
  | some m =>
    match m.labels with
    | none =>
      { d with
      metrics := upd d.metrics fact.1
          (some { m with labels := some (GoSet.ofList fact.2) }) }
    | some ls =>
      { d with
      metrics := upd d.metrics fact.1
          (some { m with
                  labels := some (fun x => ls x || fact.2.contains x) }) }

/-- One message of `watchLabelsQueue`. -/
def watchLabelsQueue1 (d : DB) (data : List (String × List String)) : DB :=
  data.foldl labelsStep d

/-- One fact handed to the store: one message on one of the four queues,
or a `DeleteMetric` call. -/
inductive Fact where
  | metricList (batch : List String)
  | usageFacts (data : List (String × Option MetricUsage))
  | partialUsageFacts (data : List (String × Option MetricUsage))
  | labelFacts (data : List (String × List String))
  | deleteCall (name : String)

def applyFact (d : DB) : Fact → DB
  | .metricList batch => watchMetricsQueue1 d batch
  | .usageFacts data => watchUsageQueue1 d data
  | .partialUsageFacts data => watchPartialMetricsUsageQueue1 d data
  | .labelFacts data => watchLabelsQueue1 d data
  | .deleteCall name => (DeleteMetric d name).2

/-- Run a sequence of facts from the fresh in-memory store. -/
def run (threshold : Nat) (facts : List Fact) : DB :=
  facts.foldl applyFact (initDB threshold)

def Fact.isLabels : Fact → Bool
  | .labelFacts _ => true
  | _ => false

/-- Membership of `n` in the matching set of the partial metric stored
under `p` (false when `p` is absent or its set is nil). -/
def pmContainsAt (d : DB) (p n : String) : Bool :=
  match d.partialMetrics p with
  | some pm => pm.containsMetric n
  | none => false

/-- Compile a partial metric name and run `isMatching` on a candidate;
`none` when the pattern is unconstrained or fails to compile. -/
def compiledIsMatching (pat m : String) : Option Bool :=
  match generateRegexp pat with
  | .ok (some re) => some (isMatching re m)
  | _ => none

/-- `.ok (some _)`: the pattern compiled with no error and is usable. -/
def isOkSome : Except Unit (Option RE) → Bool
  | .ok (some _) => true
  | _ => false

/-!  The write handlers of source/metric/endpoint.go.  `RegisterRoute`
binds each POST path to a handler method; a handler decodes the body and
enqueues it on one of the store queues. -/

/-- The handler methods of the metric endpoint. -/
inductive Handler where
  | pushMetricsUsage
  | pushPartialMetricsUsage
deriving DecidableEq

/-- The POST routing table built by `RegisterRoute` in
source/metric/endpoint.go (lines 40 and 44). -/
def postRoutes : List (String × Handler) :=
  [("/api/v1/metrics", .pushMetricsUsage),
   ("/api/v1/partial_metrics", .pushMetricsUsage)]

/-- Which store fact a handler turns a well-formed body into:
`PushMetricsUsage` calls `EnqueueUsage` (the concrete-usage queue),
`PushPartialMetricsUsage` calls `EnqueuePartialMetricsUsage`. -/
def handlerFact (h : Handler) (body : List (String × Option MetricUsage)) :
    Fact :=
  match h with
  | .pushMetricsUsage => .usageFacts body
  | .pushPartialMetricsUsage => .partialUsageFacts body

/-- Dispatch a POST with a well-formed body through the routing table. -/
def dispatchPost (path : String)
    (body : List (String × Option MetricUsage)) : Option Fact :=
  (postRoutes.lookup path).map (fun h => handlerFact h body)

/-!  Projection and frame lemmas about the store operations. -/

theorem foldl_preserve {α : Type} {P : DB → Prop} (f : DB → α → DB)
    (hf : ∀ d a, P d → P (f d a)) :
    ∀ (l : List α) (d : DB), P d → P (l.foldl f d)
  | [], _, h => h
  | a :: l, d, h => foldl_preserve f hf l (f d a) (hf d a h)

theorem matchValidMetric_metrics (d : DB) (v : String) :
    (matchValidMetric d v).metrics = d.metrics := rfl

theorem matchValidMetric_usage (d : DB) (v : String) :
    (matchValidMetric d v).usage = d.usage := rfl

theorem metricsStep_known (d : DB) (n : String)
    (h : (d.metrics n).isSome = true) :
    metricsStep d n =
      { d with metricLastTimeSeen := upd d.metricLastTimeSeen n (some 0) } := by
  simp [metricsStep, h]

theorem metricsStep_metrics_self_new (d : DB) (n : String)
    (h : d.metrics n = none) :
    (metricsStep d n).metrics n =
      some { labels := some GoSet.empty, usage := (d.usage n).join } := by
  simp only [metricsStep, h, Option.isSome_none, Bool.false_eq_true,
    if_false]
  cases hu : d.usage n <;>
    simp [matchValidMetric, upd, hu, Option.join]

theorem metricsStep_usage_self_new (d : DB) (n : String)
    (h : d.metrics n = none) :
    (metricsStep d n).usage n = none := by
  simp only [metricsStep, h, Option.isSome_none, Bool.false_eq_true,
    if_false]
  cases hu : d.usage n <;>
    simp [matchValidMetric, upd, hu]

theorem metricsStep_lts_self (d : DB) (n : String) :
    (metricsStep d n).metricLastTimeSeen n = some 0 := by
  simp [metricsStep, upd]

theorem metricsStep_metrics_ne (d : DB) (n m : String) (h : m ≠ n) :
    (metricsStep d n).metrics m = d.metrics m := by
  by_cases hk : (d.metrics n).isSome
  · simp [metricsStep_known d n hk]
  · simp only [metricsStep, hk, Bool.false_eq_true, if_false]
    cases hu : d.usage n <;>
      simp [matchValidMetric, upd, hu, h]

theorem metricsStep_usage_ne (d : DB) (n m : String) (h : m ≠ n) :
    (metricsStep d n).usage m = d.usage m := by
  by_cases hk : (d.metrics n).isSome
  · simp [metricsStep_known d n hk]
  · simp only [metricsStep, hk, Bool.false_eq_true, if_false]
    cases hu : d.usage n <;>
      simp [matchValidMetric, upd, hu, h]

theorem metricsStep_lts_ne (d : DB) (n m : String) (h : m ≠ n) :
    (metricsStep d n).metricLastTimeSeen m = d.metricLastTimeSeen m := by
  by_cases hk : (d.metrics n).isSome
  · simp [metricsStep_known d n hk, upd, h]
  · simp only [metricsStep, hk, Bool.false_eq_true, if_false]
    cases hu : d.usage n <;>
      simp [matchValidMetric, upd, hu, h]

theorem metricsStep_metrics_isSome_self (d : DB) (n : String) :
    ((metricsStep d n).metrics n).isSome = true := by
  by_cases hk : (d.metrics n).isSome
  · simp [metricsStep_known d n hk, hk]
  · have h : d.metrics n = none := by
      cases hv : d.metrics n
      · rfl
      · rw [hv] at hk; simp at hk
    rw [metricsStep_metrics_self_new d n h]
    rfl

theorem metricsStep_threshold (d : DB) (n : String) :
    (metricsStep d n).threshold = d.threshold := by
  by_cases hk : (d.metrics n).isSome
  · simp [metricsStep_known d n hk]
  · simp only [metricsStep, hk, Bool.false_eq_true, if_false]
    cases hu : d.usage n <;>
      simp [matchValidMetric, upd, hu]

theorem metricsStep_partialMetrics_known (d : DB) (n : String)
    (h : (d.metrics n).isSome = true) :
    (metricsStep d n).partialMetrics = d.partialMetrics := by
  simp [metricsStep_known d n h]

theorem metricsStep_partialMetrics_new (d : DB) (n : String)
    (h : d.metrics n = none) :
    (metricsStep d n).partialMetrics =
      fun p => (d.partialMetrics p).map (matchValidMetricOne n p) := by
  simp only [metricsStep, h, Option.isSome_none, Bool.false_eq_true,
    if_false]
  cases hu : d.usage n <;>
    simp [matchValidMetric, upd, hu]

theorem usageStep_partialMetrics (d : DB) (f : String × Option MetricUsage) :
    (usageStep d f).partialMetrics = d.partialMetrics := by
  cases h : d.metrics f.1 <;> simp [usageStep, h]

theorem usageStep_lts (d : DB) (f : String × Option MetricUsage) :
    (usageStep d f).metricLastTimeSeen = d.metricLastTimeSeen := by
  cases h : d.metrics f.1 <;> simp [usageStep, h]

theorem usageStep_threshold (d : DB) (f : String × Option MetricUsage) :
    (usageStep d f).threshold = d.threshold := by
  cases h : d.metrics f.1 <;> simp [usageStep, h]

theorem usageStep_metrics_isSome (d : DB) (f : String × Option MetricUsage)
    (n : String) :
    ((usageStep d f).metrics n).isSome = (d.metrics n).isSome := by
  cases h : d.metrics f.1 with
  | none => simp [usageStep, h]
  | some m => by_cases hn : n = f.1 <;> simp [usageStep, h, upd, hn]

theorem usageStep_known_usage (d : DB) (f : String × Option MetricUsage)
    (h : (d.metrics f.1).isSome = true) :
    (usageStep d f).usage = d.usage := by
  cases hv : d.metrics f.1
  · rw [hv] at h; simp at h
  · simp [usageStep, hv]

theorem usageStep_unknown_metrics (d : DB) (f : String × Option MetricUsage)
    (h : d.metrics f.1 = none) :
    (usageStep d f).metrics = d.metrics := by
  simp [usageStep, h]

theorem usageStep_usage_ne (d : DB) (f : String × Option MetricUsage)
    (n : String) (hn : n ≠ f.1) :
    (usageStep d f).usage n = d.usage n := by
  cases h : d.metrics f.1 <;> simp [usageStep, h, upd, hn]

theorem partialUsageStep_metrics (d : DB) (f : String × Option MetricUsage) :
    (partialUsageStep d f).metrics = d.metrics := by
  cases h : d.partialMetrics f.1 <;> simp [partialUsageStep, h]

theorem partialUsageStep_usage (d : DB) (f : String × Option MetricUsage) :
    (partialUsageStep d f).usage = d.usage := by
  cases h : d.partialMetrics f.1 <;> simp [partialUsageStep, h]

theorem partialUsageStep_lts (d : DB) (f : String × Option MetricUsage) :
    (partialUsageStep d f).metricLastTimeSeen = d.metricLastTimeSeen := by
  cases h : d.partialMetrics f.1 <;> simp [partialUsageStep, h]

theorem partialUsageStep_threshold (d : DB) (f : String × Option MetricUsage) :
    (partialUsageStep d f).threshold = d.threshold := by
  cases h : d.partialMetrics f.1 <;> simp [partialUsageStep, h]

theorem labelsStep_partialMetrics (d : DB) (f : String × List String) :
    (labelsStep d f).partialMetrics = d.partialMetrics := by
  cases h : d.metrics f.1 with
  | none => simp [labelsStep, h]
  | some m => cases hl : m.labels <;> simp [labelsStep, h, hl]

theorem labelsStep_usage (d : DB) (f : String × List String) :
    (labelsStep d f).usage = d.usage := by
  cases h : d.metrics f.1 with
  | none => simp [labelsStep, h]
  | some m => cases hl : m.labels <;> simp [labelsStep, h, hl]

theorem labelsStep_lts (d : DB) (f : String × List String) :
    (labelsStep d f).metricLastTimeSeen = d.metricLastTimeSeen := by
  cases h : d.metrics f.1 with
  | none => simp [labelsStep, h]
  | some m => cases hl : m.labels <;> simp [labelsStep, h, hl]

theorem labelsStep_threshold (d : DB) (f : String × List String) :
    (labelsStep d f).threshold = d.threshold := by
  cases h : d.metrics f.1 with
  | none => simp [labelsStep, h]
  | some m => cases hl : m.labels <;> simp [labelsStep, h, hl]

theorem labelsStep_metrics_isSome (d : DB) (f : String × List String)
    (n : String) (h : (d.metrics n).isSome = true) :
    ((labelsStep d f).metrics n).isSome = true := by
  cases hv : d.metrics f.1 with
  | none =>
    by_cases hn : n = f.1 <;> simp [labelsStep, hv, upd, hn, h]
  | some m =>
    cases hl : m.labels <;>
      by_cases hn : n = f.1 <;> simp [labelsStep, hv, hl, upd, hn, h]

theorem evict_usage (d : DB) : (evict d).usage = d.usage := rfl

theorem evict_threshold (d : DB) : (evict d).threshold = d.threshold := rfl

theorem deleteMetric_usage (d : DB) (n : String) :
    (deleteMetric d n).usage = d.usage := rfl

theorem deleteMetric_threshold (d : DB) (n : String) :
    (deleteMetric d n).threshold = d.threshold := rfl

theorem eqNoneOfNotIsSome {α : Type} {o : Option α}
    (h : ¬o.isSome = true) : o = none := by
  cases o
  · rfl
  · simp at h

/-- Strong form of the C2 invariant: a pending-buffer key is never a
key of the concrete-metric map at all. -/
def PendingExcl (d : DB) : Prop :=
  ∀ n, (d.usage n).isSome = true → d.metrics n = none

theorem usageStep_pendingExcl (d : DB) (f : String × Option MetricUsage)
    (h : PendingExcl d) : PendingExcl (usageStep d f) := by
  intro n hn
  cases hv : d.metrics f.1 with
  | some m =>
    rw [usageStep_known_usage d f (by rw [hv]; rfl)] at hn
    have hmn := h n hn
    simp only [usageStep, hv]
    by_cases heq : n = f.1
    · rw [heq] at hmn; rw [hmn] at hv; cases hv
    · simp [upd, heq, hmn]
  | none =>
    rw [usageStep_unknown_metrics d f hv]
    by_cases heq : n = f.1
    · rw [heq]; exact hv
    · rw [usageStep_usage_ne d f n heq] at hn
      exact h n hn

theorem metricsStep_pendingExcl (d : DB) (n0 : String)
    (h : PendingExcl d) : PendingExcl (metricsStep d n0) := by
  intro n hn
  by_cases hk : (d.metrics n0).isSome
  · rw [metricsStep_known d n0 hk] at hn ⊢
    exact h n hn
  · have hnone := eqNoneOfNotIsSome hk
    by_cases heq : n = n0
    · subst heq
      rw [metricsStep_usage_self_new d n hnone] at hn
      cases hn
    · rw [metricsStep_usage_ne d n0 n heq] at hn
      rw [metricsStep_metrics_ne d n0 n heq]
      exact h n hn

theorem evict_pendingExcl (d : DB) (h : PendingExcl d) :
    PendingExcl (evict d) := by
  intro n hn
  have hm := h n hn
  simp only [evict]
  rw [hm]
  split <;> rfl

theorem deleteMetric_pendingExcl (d : DB) (n0 : String)
    (h : PendingExcl d) : PendingExcl (deleteMetric d n0) := by
  intro n hn
  have hm := h n hn
  by_cases heq : n = n0 <;> simp [deleteMetric, upd, heq, hm]

theorem applyFact_pendingExcl (d : DB) (f : Fact)
    (hl : f.isLabels = false) (h : PendingExcl d) :
    PendingExcl (applyFact d f) := by
  cases f with
  | metricList batch =>
    exact evict_pendingExcl _
      (foldl_preserve metricsStep (fun d' a h' => metricsStep_pendingExcl d' a h')
        batch _ (fun n hn => h n hn))
  | usageFacts data =>
    exact foldl_preserve usageStep (fun d' a h' => usageStep_pendingExcl d' a h')
      data d h
  | partialUsageFacts data =>
    refine foldl_preserve partialUsageStep ?_ data d h
    intro d' f' h' n hn
    rw [show (partialUsageStep d' f').usage = d'.usage from
          partialUsageStep_usage d' f'] at hn
    rw [show (partialUsageStep d' f').metrics = d'.metrics from
          partialUsageStep_metrics d' f']
    exact h' n hn
  | labelFacts data => cases hl
  | deleteCall name =>
    simp only [applyFact, DeleteMetric]
    split
    · exact deleteMetric_pendingExcl d name h
    · exact h

theorem run_pendingExcl (t : Nat) (facts : List Fact)
    (h : ∀ f ∈ facts, f.isLabels = false) : PendingExcl (run t facts) := by
  have main : ∀ (fs : List Fact) (d : DB),
      (∀ f ∈ fs, f.isLabels = false) → PendingExcl d →
      PendingExcl (fs.foldl applyFact d) := by
    intro fs
    induction fs with
    | nil => intro d _ hd; exact hd
    | cons f fs ih =>
      intro d hfs hd
      exact ih _ (fun g hg => hfs g (List.mem_cons_of_mem f hg))
        (applyFact_pendingExcl d f (hfs f (List.mem_cons_self f fs)) hd)
  exact main facts (initDB t) h (fun n hn => by cases hn)

/-- The C6 invariant: every member of a partial metric's matching set is
a key of the concrete-metric map. -/
def SubsetInv (d : DB) : Prop :=
  ∀ p n, pmContainsAt d p n = true → (d.metrics n).isSome = true

theorem applyReToPM_contains (v : String) (pm : PartialMetric)
    (reOpt : Option RE) (n : String)
    (h : (applyReToPM v pm reOpt).containsMetric n = true) :
    n = v ∨ pm.containsMetric n = true := by
  cases reOpt with
  | none => exact Or.inr h
  | some re =>
    simp only [applyReToPM] at h
    split at h
    · by_cases hn : n = v
      · exact Or.inl hn
      · right
        simp only [PartialMetric.containsMetric, GoSet.add] at h
        rw [if_neg hn] at h
        cases hm : pm.matchingMetrics with
        | none =>
          rw [hm] at h
          exact absurd h (by simp [GoSet.empty, Option.getD])
        | some ms =>
          rw [hm] at h
          simp only [Option.getD] at h
          simp only [PartialMetric.containsMetric, hm]
          exact h
    · exact Or.inr h

theorem matchValidMetricOne_contains (v p : String) (pm : PartialMetric)
    (n : String)
    (h : (matchValidMetricOne v p pm).containsMetric n = true) :
    n = v ∨ pm.containsMetric n = true := by
  unfold matchValidMetricOne at h
  split at h
  · exact applyReToPM_contains v pm _ n h
  · split at h
    · exact Or.inr h
    · exact applyReToPM_contains v pm _ n h

theorem matchPartialMetric_contains (d : DB) (pat n : String)
    (ms : GoSet String) (h2 : (matchPartialMetric d pat).2 = some ms)
    (h : ms n = true) : (d.metrics n).isSome = true := by
  unfold matchPartialMetric at h2
  split at h2
  · simp at h2
  · simp at h2
  · simp only [Prod.snd, Option.some.injEq] at h2
    subst h2
    simp only [Bool.and_eq_true] at h
    exact h.1

theorem usageStep_subsetInv (d : DB) (f : String × Option MetricUsage)
    (h : SubsetInv d) : SubsetInv (usageStep d f) := by
  intro p n hc
  rw [usageStep_metrics_isSome]
  apply h p n
  simpa only [pmContainsAt, usageStep_partialMetrics] using hc

theorem labelsStep_subsetInv (d : DB) (f : String × List String)
    (h : SubsetInv d) : SubsetInv (labelsStep d f) := by
  intro p n hc
  apply labelsStep_metrics_isSome
  apply h p n
  simpa only [pmContainsAt, labelsStep_partialMetrics] using hc

theorem partialUsageStep_subsetInv (d : DB)
    (f : String × Option MetricUsage) (h : SubsetInv d) :
    SubsetInv (partialUsageStep d f) := by
  intro p n hc
  rw [show (partialUsageStep d f).metrics = d.metrics from
        partialUsageStep_metrics d f]
  cases hv : d.partialMetrics f.1 with
  | none =>
    simp only [pmContainsAt, partialUsageStep, hv] at hc
    by_cases hp : p = f.1
    · rw [show upd d.partialMetrics f.1
            (some { usage := f.2, matchingMetrics := (matchPartialMetric d f.1).2,
                    matchingRegexp := (matchPartialMetric d f.1).1 }) p
          = some { usage := f.2, matchingMetrics := (matchPartialMetric d f.1).2,
                   matchingRegexp := (matchPartialMetric d f.1).1 } from by
            simp [upd, hp]] at hc
      simp only [PartialMetric.containsMetric] at hc
      cases hm : (matchPartialMetric d f.1).2 with
      | none => rw [hm] at hc; cases hc
      | some ms =>
        rw [hm] at hc
        exact matchPartialMetric_contains d f.1 n ms hm hc
    · apply h p n
      simpa only [pmContainsAt, upd, if_neg hp] using hc
  | some pm =>
    simp only [pmContainsAt, partialUsageStep, hv] at hc
    by_cases hp : p = f.1
    · rw [show upd d.partialMetrics f.1
            (some { pm with usage := MergeUsage pm.usage f.2 }) p
          = some { pm with usage := MergeUsage pm.usage f.2 } from by
            simp [upd, hp]] at hc
      apply h p n
      rw [hp]
      simp only [pmContainsAt, hv]
      exact hc
    · apply h p n
      simpa only [pmContainsAt, upd, if_neg hp] using hc

theorem metricsStep_subsetInv (d : DB) (n0 : String)
    (h : SubsetInv d) : SubsetInv (metricsStep d n0) := by
  intro p n hc
  by_cases hk : (d.metrics n0).isSome
  · rw [metricsStep_known d n0 hk] at hc ⊢
    exact h p n hc
  · have hnone := eqNoneOfNotIsSome hk
    simp only [pmContainsAt, metricsStep_partialMetrics_new d n0 hnone] at hc
    cases hv : d.partialMetrics p with
    | none => rw [hv] at hc; cases hc
    | some pm =>
      rw [hv] at hc
      simp only [Option.map_some'] at hc
      rcases matchValidMetricOne_contains n0 p pm n hc with rfl | hcold
      · exact metricsStep_metrics_isSome_self d n
      · by_cases heq : n = n0
        · subst heq; exact metricsStep_metrics_isSome_self d n
        · rw [metricsStep_metrics_ne d n0 n heq]
          apply h p n
          simp only [pmContainsAt, hv]
          exact hcold

theorem evict_subsetInv (d : DB) (h : SubsetInv d) :
    SubsetInv (evict d) := by
  intro p n hc
  simp only [pmContainsAt, evict] at hc ⊢
  cases hv : d.partialMetrics p with
  | none => rw [hv] at hc; cases hc
  | some pm =>
    rw [hv] at hc
    simp only [Option.map_some', PartialMetric.containsMetric] at hc
    cases hm : pm.matchingMetrics with
    | none => rw [hm] at hc; simp at hc
    | some ms =>
      rw [hm] at hc
      simp only [Option.map_some'] at hc
      split at hc
      · cases hc
      · have hd := h p n (by
          simp only [pmContainsAt, hv, PartialMetric.containsMetric, hm]
          exact hc)
        simp_all

theorem scrubOne_contains (n0 : String) (pm0 : PartialMetric) :
    (if pm0.containsMetric n0 then
        { pm0 with
          matchingMetrics :=
            pm0.matchingMetrics.map (fun ms => ms.remove n0) }
      else pm0).containsMetric n0 = false := by
  split
  · simp only [PartialMetric.containsMetric]
    cases hm : pm0.matchingMetrics <;> simp [GoSet.remove]
  · rename_i hc
    exact Bool.eq_false_iff.mpr hc

theorem scrubOne_contains_ne (n0 n : String) (pm0 : PartialMetric)
    (hn : n ≠ n0)
    (hc : (if pm0.containsMetric n0 then
        { pm0 with
          matchingMetrics :=
            pm0.matchingMetrics.map (fun ms => ms.remove n0) }
      else pm0).containsMetric n = true) :
    pm0.containsMetric n = true := by
  split at hc
  · simp only [PartialMetric.containsMetric] at hc ⊢
    cases hm : pm0.matchingMetrics with
    | none => rw [hm] at hc; simp at hc
    | some ms =>
      rw [hm] at hc
      simp only [Option.map_some', GoSet.remove] at hc
      rw [if_neg hn] at hc
      exact hc
  · exact hc

theorem deleteMetric_subsetInv (d : DB) (n0 : String) (h : SubsetInv d) :
    SubsetInv (deleteMetric d n0) := by
  intro p n hc
  simp only [pmContainsAt, deleteMetric] at hc
  cases hv : d.partialMetrics p with
  | none => rw [hv] at hc; cases hc
  | some pm =>
    rw [hv] at hc
    simp only [Option.map_some'] at hc
    by_cases hn0 : n = n0
    · subst hn0
      rw [scrubOne_contains n pm] at hc
      cases hc
    · have hcb := scrubOne_contains_ne n0 n pm hn0 hc
      have hd := h p n (by
        simp only [pmContainsAt, hv]
        exact hcb)
      simp only [deleteMetric, upd]
      rw [if_neg hn0]
      exact hd

theorem applyFact_subsetInv (d : DB) (f : Fact) (h : SubsetInv d) :
    SubsetInv (applyFact d f) := by
  cases f with
  | metricList batch =>
    exact evict_subsetInv _
      (foldl_preserve metricsStep
        (fun d' a h' => metricsStep_subsetInv d' a h') batch _
        (fun p n hc => h p n hc))
  | usageFacts data =>
    exact foldl_preserve usageStep
      (fun d' a h' => usageStep_subsetInv d' a h') data d h
  | partialUsageFacts data =>
    exact foldl_preserve partialUsageStep
      (fun d' a h' => partialUsageStep_subsetInv d' a h') data d h
  | labelFacts data =>
    exact foldl_preserve labelsStep
      (fun d' a h' => labelsStep_subsetInv d' a h') data d h
  | deleteCall name =>
    simp only [applyFact, DeleteMetric]
    split
    · exact deleteMetric_subsetInv d name h
    · exact h

theorem run_subsetInv (t : Nat) (facts : List Fact) :
    SubsetInv (run t facts) := by
  have main : ∀ (fs : List Fact) (d : DB), SubsetInv d →
      SubsetInv (fs.foldl applyFact d) := by
    intro fs
    induction fs with
    | nil => intro d hd; exact hd
    | cons f fs ih => intro d hd; exact ih _ (applyFact_subsetInv d f hd)
  exact main facts (initDB t) (fun p n hc => by cases hc)

theorem foldl_metricsStep_threshold :
    ∀ (batch : List String) (d : DB),
      (batch.foldl metricsStep d).threshold = d.threshold
  | [], _ => rfl
  | n :: batch, d => by
    show (batch.foldl metricsStep (metricsStep d n)).threshold = d.threshold
    rw [foldl_metricsStep_threshold batch (metricsStep d n),
      metricsStep_threshold]

theorem watchMetricsQueue1_threshold (d : DB) (batch : List String) :
    (watchMetricsQueue1 d batch).threshold = d.threshold := by
  unfold watchMetricsQueue1
  rw [evict_threshold, foldl_metricsStep_threshold]

/-- A metric entry created (or present) with a drained buffer slot and a
reset counter survives the rest of the batch loop untouched. -/
theorem foldl_metricsStep_keep (M : String) (mv : Metric) :
    ∀ (batch : List String) (d : DB),
      d.metrics M = some mv → d.usage M = none →
      d.metricLastTimeSeen M = some 0 →
      (batch.foldl metricsStep d).metrics M = some mv ∧
      (batch.foldl metricsStep d).usage M = none ∧
      (batch.foldl metricsStep d).metricLastTimeSeen M = some 0
  | [], _, h1, h2, h3 => ⟨h1, h2, h3⟩
  | n :: batch, d, h1, h2, h3 => by
    rw [List.foldl_cons]
    by_cases hn : M = n
    · subst hn
      have hk : (d.metrics M).isSome = true := by rw [h1]; rfl
      rw [metricsStep_known d M hk]
      exact foldl_metricsStep_keep M mv batch _ h1 h2 (by simp [upd])
    · exact foldl_metricsStep_keep M mv batch _
        (by rw [metricsStep_metrics_ne d n M hn]; exact h1)
        (by rw [metricsStep_usage_ne d n M hn]; exact h2)
        (by rw [metricsStep_lts_ne d n M hn]; exact h3)

/-- The batch loop creates a metric present in the batch, draining the
buffered usage into it. -/
theorem foldl_metricsStep_create (M : String) (q : Option MetricUsage) :
    ∀ (batch : List String) (d : DB),
      M ∈ batch → d.metrics M = none → d.usage M = some q →
      (batch.foldl metricsStep d).metrics M
          = some { labels := some GoSet.empty, usage := q } ∧
      (batch.foldl metricsStep d).usage M = none ∧
      (batch.foldl metricsStep d).metricLastTimeSeen M = some 0
  | [], _, hmem, _, _ => absurd hmem (List.not_mem_nil M)
  | n :: batch, d, hmem, h1, h2 => by
    rw [List.foldl_cons]
    by_cases hn : M = n
    · subst hn
      have hm := metricsStep_metrics_self_new d M h1
      rw [h2] at hm
      exact foldl_metricsStep_keep M _ batch _ hm
        (metricsStep_usage_self_new d M h1) (metricsStep_lts_self d M)
    · rcases List.mem_cons.mp hmem with heq | hmem2
      · exact absurd heq hn
      · exact foldl_metricsStep_create M q batch _ hmem2
          (by rw [metricsStep_metrics_ne d n M hn]; exact h1)
          (by rw [metricsStep_usage_ne d n M hn]; exact h2)

/-- A whole `watchMetricsQueue` message drains the pending usage of a
previously-unknown metric contained in the batch. -/
theorem watchMetricsQueue1_drain (d : DB) (M : String)
    (q : Option MetricUsage) (batch : List String) (hmem : M ∈ batch)
    (h1 : d.metrics M = none) (h2 : d.usage M = some q)
    (ht : 0 < d.threshold) :
    (watchMetricsQueue1 d batch).metrics M
        = some { labels := some GoSet.empty, usage := q } ∧
    (watchMetricsQueue1 d batch).usage M = none := by
  unfold watchMetricsQueue1
  obtain ⟨ha, hb, hcnt⟩ := foldl_metricsStep_create M q batch
    { d with
      metricLastTimeSeen := fun n =>
        (d.metricLastTimeSeen n).map (fun c => (c + 1) % 256) }
    hmem h1 h2
  refine ⟨?_, hb⟩
  simp only [evict]
  simp only [hcnt, ha, foldl_metricsStep_threshold]
  simp [Nat.not_le.mpr ht]

/-- A batch not containing `M` leaves all of `M`'s entries alone
(before eviction). -/
theorem foldl_metricsStep_absent (M : String) :
    ∀ (batch : List String) (d : DB), M ∉ batch →
      (batch.foldl metricsStep d).metrics M = d.metrics M ∧
      (batch.foldl metricsStep d).usage M = d.usage M ∧
      (batch.foldl metricsStep d).metricLastTimeSeen M
        = d.metricLastTimeSeen M
  | [], _, _ => ⟨rfl, rfl, rfl⟩
  | n :: batch, d, hmem => by
    rw [List.foldl_cons]
    have hn : M ≠ n := fun h => hmem (h ▸ List.mem_cons_self n batch)
    have hrest : M ∉ batch := fun h => hmem (List.mem_cons_of_mem n h)
    obtain ⟨a, b, c⟩ := foldl_metricsStep_absent M batch (metricsStep d n) hrest
    exact ⟨by rw [a, metricsStep_metrics_ne d n M hn],
      by rw [b, metricsStep_usage_ne d n M hn],
      by rw [c, metricsStep_lts_ne d n M hn]⟩

/-- A batch without `M`, when `M`'s counter reaches the threshold,
evicts `M`. -/
theorem watchMetricsQueue1_absent_del (d : DB) (M : String) (c : Nat)
    (B : List String) (hB : M ∉ B) (hc : d.metricLastTimeSeen M = some c)
    (hlt : c + 1 ≤ 255) (hdel : d.threshold ≤ c + 1) :
    (watchMetricsQueue1 d B).metrics M = none ∧
    (watchMetricsQueue1 d B).metricLastTimeSeen M = none := by
  unfold watchMetricsQueue1
  obtain ⟨a, _, cc⟩ := foldl_metricsStep_absent M B
    { d with
      metricLastTimeSeen := fun n =>
        (d.metricLastTimeSeen n).map (fun x => (x + 1) % 256) } hB
  have hcnt : (B.foldl metricsStep
      { d with
        metricLastTimeSeen := fun n =>
          (d.metricLastTimeSeen n).map (fun x => (x + 1) % 256)
      }).metricLastTimeSeen M = some (c + 1) := by
    rw [cc]
    show (d.metricLastTimeSeen M).map (fun x => (x + 1) % 256) = _
    rw [hc]
    simp [Nat.mod_eq_of_lt (Nat.lt_succ_of_le hlt)]
  constructor
  · simp only [evict]
    simp only [hcnt, foldl_metricsStep_threshold]
    simp [hdel]
  · simp only [evict]
    simp only [hcnt, foldl_metricsStep_threshold]
    simp [hdel]

/-- A batch without `M`, while the counter stays below the threshold,
just increments the counter. -/
theorem watchMetricsQueue1_absent_keep (d : DB) (M : String) (c : Nat)
    (B : List String) (hB : M ∉ B) (hc : d.metricLastTimeSeen M = some c)
    (hlt : c + 1 ≤ 255) (hkeep : c + 1 < d.threshold) :
    (watchMetricsQueue1 d B).metrics M = d.metrics M ∧
    (watchMetricsQueue1 d B).metricLastTimeSeen M = some (c + 1) := by
  unfold watchMetricsQueue1
  obtain ⟨a, _, cc⟩ := foldl_metricsStep_absent M B
    { d with
      metricLastTimeSeen := fun n =>
        (d.metricLastTimeSeen n).map (fun x => (x + 1) % 256) } hB
  have hcnt : (B.foldl metricsStep
      { d with
        metricLastTimeSeen := fun n =>
          (d.metricLastTimeSeen n).map (fun x => (x + 1) % 256)
      }).metricLastTimeSeen M = some (c + 1) := by
    rw [cc]
    show (d.metricLastTimeSeen M).map (fun x => (x + 1) % 256) = _
    rw [hc]
    simp [Nat.mod_eq_of_lt (Nat.lt_succ_of_le hlt)]
  constructor
  · simp only [evict]
    simp only [hcnt, a, foldl_metricsStep_threshold]
    simp [Nat.not_le.mpr hkeep]
  · simp only [evict]
    simp only [hcnt, foldl_metricsStep_threshold]
    simp [Nat.not_le.mpr hkeep]

/-- Once deleted (no entry, no counter), a metric absent from the
batches stays deleted. -/
theorem watchMetricsQueue1_stays_gone (M : String) :
    ∀ (bs : List (List String)) (d : DB),
      (∀ B ∈ bs, M ∉ B) → d.metrics M = none →
      d.metricLastTimeSeen M = none →
      (bs.foldl watchMetricsQueue1 d).metrics M = none ∧
      (bs.foldl watchMetricsQueue1 d).metricLastTimeSeen M = none
  | [], _, _, h1, h2 => ⟨h1, h2⟩
  | B :: bs, d, hB, h1, h2 => by
    rw [List.foldl_cons]
    refine watchMetricsQueue1_stays_gone M bs _
      (fun b hb => hB b (List.mem_cons_of_mem B hb)) ?_ ?_
    · unfold watchMetricsQueue1
      obtain ⟨a, _, cc⟩ := foldl_metricsStep_absent M B
        { d with
          metricLastTimeSeen := fun n =>
            (d.metricLastTimeSeen n).map (fun x => (x + 1) % 256) }
        (hB B (List.mem_cons_self B bs))
      have hcnt : (B.foldl metricsStep
          { d with
            metricLastTimeSeen := fun n =>
              (d.metricLastTimeSeen n).map (fun x => (x + 1) % 256)
          }).metricLastTimeSeen M = none := by
        rw [cc]
        show (d.metricLastTimeSeen M).map (fun x => (x + 1) % 256) = _
        rw [h2]
        rfl
      simp only [evict]
      simp only [hcnt, a]
      simp [h1]
    · unfold watchMetricsQueue1
      obtain ⟨_, _, cc⟩ := foldl_metricsStep_absent M B
        { d with
          metricLastTimeSeen := fun n =>
            (d.metricLastTimeSeen n).map (fun x => (x + 1) % 256) }
        (hB B (List.mem_cons_self B bs))
      have hcnt : (B.foldl metricsStep
          { d with
            metricLastTimeSeen := fun n =>
              (d.metricLastTimeSeen n).map (fun x => (x + 1) % 256)
          }).metricLastTimeSeen M = none := by
        rw [cc]
        show (d.metricLastTimeSeen M).map (fun x => (x + 1) % 256) = _
        rw [h2]
        rfl
      simp only [evict]
      simp only [hcnt]
      simp

/-- Main eviction induction: with a live counter `c`, enough absent
batches (no counter wrap) delete the metric. -/
theorem eviction_reaches (M : String) :
    ∀ (bs : List (List String)) (d : DB) (c : Nat),
      d.metricLastTimeSeen M = some c → (∀ B ∈ bs, M ∉ B) →
      c < d.threshold → d.threshold ≤ c + bs.length →
      c + bs.length ≤ 255 →
      (bs.foldl watchMetricsQueue1 d).metrics M = none
  | [], _, c, _, _, hlt, hge, _ => by
    simp only [List.length_nil, Nat.add_zero] at hge
    exact absurd hge (Nat.not_le.mpr hlt)
  | B :: bs, d, c, hc, hB, hlt, hge, hbound => by
    rw [List.foldl_cons]
    have h255 : c + 1 ≤ 255 := by
      simp only [List.length_cons] at hbound
      omega
    by_cases hdel : d.threshold ≤ c + 1
    · obtain ⟨hm, hl⟩ := watchMetricsQueue1_absent_del d M c B
        (hB B (List.mem_cons_self B bs)) hc h255 hdel
      exact (watchMetricsQueue1_stays_gone M bs _
        (fun b hb => hB b (List.mem_cons_of_mem B hb)) hm hl).1
    · obtain ⟨hm, hl⟩ := watchMetricsQueue1_absent_keep d M c B
        (hB B (List.mem_cons_self B bs)) hc h255 (Nat.not_le.mp hdel)
      refine eviction_reaches M bs _ (c + 1) hl
        (fun b hb => hB b (List.mem_cons_of_mem B hb)) ?_ ?_ ?_
      · rw [watchMetricsQueue1_threshold]
        exact Nat.not_le.mp hdel
      · rw [watchMetricsQueue1_threshold]
        simp only [List.length_cons] at hge
        omega
      · simp only [List.length_cons] at hbound
        omega

/-- After the loop processes a batch member, its entry and zero counter
survive the rest of the loop. -/
theorem foldl_metricsStep_keepSome (M : String) :
    ∀ (batch : List String) (d : DB),
      ((d.metrics M).isSome = true) → d.metricLastTimeSeen M = some 0 →
      ((batch.foldl metricsStep d).metrics M).isSome = true ∧
      (batch.foldl metricsStep d).metricLastTimeSeen M = some 0
  | [], _, h1, h2 => ⟨h1, h2⟩
  | n :: batch, d, h1, h2 => by
    rw [List.foldl_cons]
    by_cases hn : M = n
    · subst hn
      rw [metricsStep_known d M h1]
      exact foldl_metricsStep_keepSome M batch _ h1 (by simp [upd])
    · exact foldl_metricsStep_keepSome M batch _
        (by rw [metricsStep_metrics_ne d n M hn]; exact h1)
        (by rw [metricsStep_lts_ne d n M hn]; exact h2)

/-- The batch loop leaves every batch member present with a reset
counter. -/
theorem foldl_metricsStep_present (M : String) :
    ∀ (batch : List String) (d : DB), M ∈ batch →
      ((batch.foldl metricsStep d).metrics M).isSome = true ∧
      (batch.foldl metricsStep d).metricLastTimeSeen M = some 0
  | [], _, hmem => absurd hmem (List.not_mem_nil M)
  | n :: batch, d, hmem => by
    rw [List.foldl_cons]
    by_cases hn : M = n
    · subst hn
      exact foldl_metricsStep_keepSome M batch _
        (metricsStep_metrics_isSome_self d M) (metricsStep_lts_self d M)
    · rcases List.mem_cons.mp hmem with heq | hmem2
      · exact absurd heq hn
      · exact foldl_metricsStep_present M batch _ hmem2

/-- A metric contained in the processed batch is present afterwards
(provided the threshold is positive). -/
theorem watchMetricsQueue1_present (d : DB) (M : String)
    (B : List String) (hmem : M ∈ B) (ht : 0 < d.threshold) :
    ((watchMetricsQueue1 d B).metrics M).isSome = true := by
  unfold watchMetricsQueue1
  obtain ⟨h1, h2⟩ := foldl_metricsStep_present M B
    { d with
      metricLastTimeSeen := fun n =>
        (d.metricLastTimeSeen n).map (fun x => (x + 1) % 256) } hmem
  simp only [evict]
  simp only [h2, foldl_metricsStep_threshold]
  simpa [Nat.not_le.mpr ht] using h1

/-- A metric present in every processed batch is never deleted. -/
theorem never_evicted (M : String) :
    ∀ (bs : List (List String)) (d : DB), (∀ B ∈ bs, M ∈ B) →
      0 < d.threshold → ((d.metrics M).isSome = true) →
      ((bs.foldl watchMetricsQueue1 d).metrics M).isSome = true
  | [], _, _, _, h1 => h1
  | B :: bs, d, hB, ht, _ => by
    rw [List.foldl_cons]
    exact never_evicted M bs _
      (fun b hb => hB b (List.mem_cons_of_mem B hb))
      (by rw [watchMetricsQueue1_threshold]; exact ht)
      (watchMetricsQueue1_present d M B (hB B (List.mem_cons_self B bs)) ht)

theorem watchUsageQueue1_partialMetrics :
    ∀ (data : List (String × Option MetricUsage)) (d : DB),
      (watchUsageQueue1 d data).partialMetrics = d.partialMetrics
  | [], _ => rfl
  | f :: data, d => by
    show (data.foldl usageStep (usageStep d f)).partialMetrics = _
    rw [show (data.foldl usageStep (usageStep d f)).partialMetrics
          = (usageStep d f).partialMetrics from
        watchUsageQueue1_partialMetrics data (usageStep d f),
      usageStep_partialMetrics]

theorem watchLabelsQueue1_partialMetrics :
    ∀ (data : List (String × List String)) (d : DB),
      (watchLabelsQueue1 d data).partialMetrics = d.partialMetrics
  | [], _ => rfl
  | f :: data, d => by
    show (data.foldl labelsStep (labelsStep d f)).partialMetrics = _
    rw [show (data.foldl labelsStep (labelsStep d f)).partialMetrics
          = (labelsStep d f).partialMetrics from
        watchLabelsQueue1_partialMetrics data (labelsStep d f),
      labelsStep_partialMetrics]

theorem evict_contains (d : DB) (p M : String)
    (hc : pmContainsAt (evict d) p M = true) : pmContainsAt d p M = true := by
  simp only [pmContainsAt, evict] at hc ⊢
  cases hv : d.partialMetrics p with
  | none => rw [hv] at hc; cases hc
  | some pm =>
    rw [hv] at hc
    simp only [Option.map_some', PartialMetric.containsMetric] at hc ⊢
    cases hm : pm.matchingMetrics with
    | none => rw [hm] at hc; simp at hc
    | some ms =>
      rw [hm] at hc
      simp only [Option.map_some'] at hc
      split at hc
      · cases hc
      · exact hc

theorem deleteMetric_contains (d : DB) (n0 p M : String)
    (hc : pmContainsAt (deleteMetric d n0) p M = true) :
    pmContainsAt d p M = true := by
  simp only [pmContainsAt, deleteMetric] at hc ⊢
  cases hv : d.partialMetrics p with
  | none => rw [hv] at hc; cases hc
  | some pm =>
    rw [hv] at hc
    simp only [Option.map_some'] at hc
    by_cases hn : M = n0
    · subst hn
      rw [scrubOne_contains M pm] at hc
      cases hc
    · exact scrubOne_contains_ne n0 M pm hn hc

theorem partialUsageStep_keep (d : DB) (f : String × Option MetricUsage)
    (p M : String) (hp : (d.partialMetrics p).isSome = true) :
    ((partialUsageStep d f).partialMetrics p).isSome = true ∧
    pmContainsAt (partialUsageStep d f) p M = pmContainsAt d p M := by
  cases hv : d.partialMetrics f.1 with
  | none =>
    by_cases heq : p = f.1
    · rw [heq] at hp
      rw [hv] at hp
      cases hp
    · constructor
      · simp only [partialUsageStep, hv, upd, if_neg heq]
        exact hp
      · simp only [pmContainsAt, partialUsageStep, hv, upd, if_neg heq]
  | some pm =>
    by_cases heq : p = f.1
    · constructor
      · simp only [partialUsageStep, hv, heq, upd, if_pos rfl]
        rfl
      · simp [pmContainsAt, partialUsageStep, hv, heq, upd,
          PartialMetric.containsMetric]
    · constructor
      · simp only [partialUsageStep, hv, upd, if_neg heq]
        exact hp
      · simp only [pmContainsAt, partialUsageStep, hv, upd, if_neg heq]

theorem foldl_partialUsageStep_keep (p M : String) :
    ∀ (data : List (String × Option MetricUsage)) (d : DB),
      (d.partialMetrics p).isSome = true →
      ((data.foldl partialUsageStep d).partialMetrics p).isSome = true ∧
      pmContainsAt (data.foldl partialUsageStep d) p M = pmContainsAt d p M
  | [], _, hp => ⟨hp, rfl⟩
  | f :: data, d, hp => by
    rw [List.foldl_cons]
    obtain ⟨h1, h2⟩ := partialUsageStep_keep d f p M hp
    obtain ⟨h3, h4⟩ := foldl_partialUsageStep_keep p M data
      (partialUsageStep d f) h1
    exact ⟨h3, by rw [h4, h2]⟩

theorem metricsStep_metrics_isSome_mono (d : DB) (n M : String)
    (h : (d.metrics M).isSome = true) :
    ((metricsStep d n).metrics M).isSome = true := by
  by_cases hn : M = n
  · subst hn; exact metricsStep_metrics_isSome_self d M
  · rw [metricsStep_metrics_ne d n M hn]; exact h

theorem metricsStep_no_new (d : DB) (n p M : String)
    (hM : (d.metrics M).isSome = true)
    (hc : pmContainsAt (metricsStep d n) p M = true) :
    pmContainsAt d p M = true := by
  by_cases hk : (d.metrics n).isSome
  · simpa only [pmContainsAt, metricsStep_partialMetrics_known d n hk]
      using hc
  · have hnone := eqNoneOfNotIsSome hk
    simp only [pmContainsAt, metricsStep_partialMetrics_new d n hnone] at hc
    cases hv : d.partialMetrics p with
    | none => rw [hv] at hc; cases hc
    | some pm =>
      rw [hv] at hc
      simp only [Option.map_some'] at hc
      rcases matchValidMetricOne_contains n p pm M hc with rfl | hcold
      · rw [hnone] at hM
        cases hM
      · simp only [pmContainsAt, hv]
        exact hcold

theorem foldl_metricsStep_no_new (p M : String) :
    ∀ (batch : List String) (d : DB), (d.metrics M).isSome = true →
      pmContainsAt (batch.foldl metricsStep d) p M = true →
      pmContainsAt d p M = true
  | [], _, _, hc => hc
  | n :: batch, d, hM, hc => by
    rw [List.foldl_cons] at hc
    exact metricsStep_no_new d n p M hM
      (foldl_metricsStep_no_new p M batch (metricsStep d n)
        (metricsStep_metrics_isSome_mono d n M hM) hc)

/-- One fact of any kind never adds an already-known concrete metric to
the matching set of an already-existing partial metric. -/
theorem applyFact_no_new_matching (d : DB) (f : Fact) (p M : String)
    (hM : (d.metrics M).isSome = true)
    (hp : (d.partialMetrics p).isSome = true)
    (hc : pmContainsAt (applyFact d f) p M = true) :
    pmContainsAt d p M = true := by
  cases f with
  | metricList batch =>
    have hev := evict_contains _ p M hc
    exact foldl_metricsStep_no_new p M batch
      { d with
        metricLastTimeSeen := fun n =>
          (d.metricLastTimeSeen n).map (fun c => (c + 1) % 256) }
      hM hev
  | usageFacts data =>
    simpa only [pmContainsAt, applyFact,
      watchUsageQueue1_partialMetrics data d] using hc
  | partialUsageFacts data =>
    have := (foldl_partialUsageStep_keep p M data d hp).2
    simp only [applyFact, watchPartialMetricsUsageQueue1] at hc
    rw [this] at hc
    exact hc
  | labelFacts data =>
    simpa only [pmContainsAt, applyFact,
      watchLabelsQueue1_partialMetrics data d] using hc
  | deleteCall name =>
    simp only [applyFact, DeleteMetric] at hc
    split at hc
    · exact deleteMetric_contains d name p M hc
    · exact hc

/-!  Concrete values used by witnesses and counterexamples. -/

def dashA : DashboardUsage := { id := "d1", name := "Dash 1", url := "http://p/d1" }

def dashB : DashboardUsage := { id := "d2", name := "Dash 2", url := "http://p/d2" }

def muA : MetricUsage :=
  { dashboards := GoSet.ofList [dashA]
    recordingRules := GoSet.ofList []
    alertRules := GoSet.ofList [] }

def muB : MetricUsage :=
  { dashboards := GoSet.ofList [dashB]
    recordingRules := GoSet.ofList []
    alertRules := GoSet.ofList [] }

/-- The compiled form of the pattern `foo_${x}` in the model. -/
def reFooVar : RE :=
  ⟨[[.start, .lit 'f', .lit 'o', .lit 'o', .lit '_', .anyPlus, .stop]]⟩

theorem GoSet.merge_comm {α : Type} (a b : GoSet α) :
    GoSet.merge a b = GoSet.merge b a :=
  funext fun y => Bool.or_comm (a y) (b y)

theorem GoSet.merge_self {α : Type} (a : GoSet α) :
    GoSet.merge a a = a :=
  funext fun y => Bool.or_self (a y)

/-!  The claims. -/

/-- C4: `MergeUsage` is commutative and idempotent on non-null usages,
its facets are the set unions of the inputs' facets, and a null argument
returns the other argument unchanged. -/
theorem mergeUsage_comm_idem_null :
    (∀ a b : MetricUsage,
        MergeUsage (some a) (some b) = MergeUsage (some b) (some a)) ∧
    (∀ a : MetricUsage, MergeUsage (some a) (some a) = some a) ∧
    (∀ a b : MetricUsage,
        MergeUsage (some a) (some b) = some
          { dashboards := GoSet.merge a.dashboards b.dashboards
            recordingRules := GoSet.merge a.recordingRules b.recordingRules
            alertRules := GoSet.merge a.alertRules b.alertRules }) ∧
    (∀ x : Option MetricUsage,
        MergeUsage none x = x ∧ MergeUsage x none = x) := by
  refine ⟨?_, ?_, ?_, ?_⟩
  · intro a b
    simp only [MergeUsage]
    rw [GoSet.merge_comm a.dashboards b.dashboards,
      GoSet.merge_comm a.recordingRules b.recordingRules,
      GoSet.merge_comm a.alertRules b.alertRules]
  · intro a
    simp only [MergeUsage]
    rw [GoSet.merge_self a.dashboards, GoSet.merge_self a.recordingRules,
      GoSet.merge_self a.alertRules]
  · intro a b
    rfl
  · intro x
    refine ⟨rfl, ?_⟩
    cases x <;> rfl

/-- C8: the pattern compiled from `foo|` rejects `bar` under
`isMatching` (its only findall match on `bar` is empty) but accepts
`foo`; the pattern compiled from `foo|bar` accepts `bar`. -/
theorem isMatching_non_trivial :
    compiledIsMatching "foo|" "bar" = some false ∧
    compiledIsMatching "foo|" "foo" = some true ∧
    compiledIsMatching "foo|bar" "bar" = some true := by
  refine ⟨?_, ?_, ?_⟩ <;> decide

/-- C9: the literal compilation cases of `generateRegexp`: variable-only
inputs compile to null with no error; the other inputs compile, with no
error, to the anchored patterns given in the spec. -/
theorem generateRegexp_literal_cases :
    generateRegexp "${metric}" = .ok none ∧
    generateRegexp "${foo}${bar}${john}${doe}" = .ok none ∧
    generateRegexpString "otelcol_exporter_enqueue_failed_log_records${suffix}"
      = some "^otelcol_exporter_enqueue_failed_log_records.+$" ∧
    isOkSome (generateRegexp
      "otelcol_exporter_enqueue_failed_log_records${suffix}") = true ∧
    generateRegexpString
        "prefix_${foo}${bar}:collection_${collection}_suffix:${john}${doe}"
      = some "^prefix_.+:collection_.+_suffix:.+$" ∧
    isOkSome (generateRegexp
      "prefix_${foo}${bar}:collection_${collection}_suffix:${john}${doe}")
      = true ∧
    generateRegexpString "otelcol_receiver_.+" = some "^otelcol_receiver_.+$" ∧
    isOkSome (generateRegexp "otelcol_receiver_.+") = true := by
  refine ⟨rfl, rfl, rfl, rfl, rfl, rfl, rfl, rfl⟩

/-- C3 (code bug): `RegisterRoute` binds POST `/api/v1/partial_metrics`
to `PushMetricsUsage`, which enqueues the body on the concrete-usage
queue (`EnqueueUsage`), not on the partial-metrics-usage queue, so after
the enqueued fact is processed the pattern key sits in the pending-usage
buffer and the partial-metric map does not contain it.  The dedicated
`PushPartialMetricsUsage` handler exists but is bound to no route. -/
theorem partialMetricsRoute_misbound :
    postRoutes.lookup "/api/v1/partial_metrics" = some .pushMetricsUsage ∧
    dispatchPost "/api/v1/partial_metrics" [("foo_${x}", some muA)]
      = some (.usageFacts [("foo_${x}", some muA)]) ∧
    (applyFact (initDB 5)
        (.usageFacts [("foo_${x}", some muA)])).partialMetrics "foo_${x}"
      = none ∧
    ((applyFact (initDB 5)
        (.usageFacts [("foo_${x}", some muA)])).usage "foo_${x}").isSome
      = true := by
  refine ⟨by decide, rfl, rfl, by decide⟩

/-- C1 (amended): if `M` is not in the concrete-metric map and the
threshold is positive, then after the usage consumer processes `{M: u}`
and the metric-list consumer processes a batch containing `M`,
`GetMetric M` returns a metric whose usage is the buffered usage — the
merge of what was already buffered for `M` with `u`, hence exactly `u`
when nothing was buffered — and the pending buffer no longer has `M`. -/
theorem pendingDrain_amended (s : DB) (M : String) (u : MetricUsage)
    (batch : List String) (hm : s.metrics M = none)
    (ht : 0 < s.threshold) (hb : M ∈ batch) :
    ((GetMetric (watchMetricsQueue1
        (watchUsageQueue1 s [(M, some u)]) batch) M).map Metric.usage
      = some (MergeUsage ((s.usage M).join) (some u))) ∧
    ListPendingUsage (watchMetricsQueue1
        (watchUsageQueue1 s [(M, some u)]) batch) M = none := by
  have hs1m : (watchUsageQueue1 s [(M, some u)]).metrics M = none := by
    show (usageStep s (M, some u)).metrics M = none
    rw [usageStep_unknown_metrics s (M, some u) hm]
    exact hm
  have hs1u : (watchUsageQueue1 s [(M, some u)]).usage M
      = some (MergeUsage ((s.usage M).join) (some u)) := by
    show (usageStep s (M, some u)).usage M = _
    simp [usageStep, hm, upd]
  have hs1t : 0 < (watchUsageQueue1 s [(M, some u)]).threshold := by
    show 0 < (usageStep s (M, some u)).threshold
    rw [usageStep_threshold]
    exact ht
  obtain ⟨ha, hb2⟩ := watchMetricsQueue1_drain _ M _ batch hb hs1m hs1u hs1t
  refine ⟨?_, hb2⟩
  simp [GetMetric, ha]

/-- Witness for C1: a concrete drain through an empty store. -/
theorem pendingDrain_amended_witness :
    ((GetMetric (watchMetricsQueue1
        (watchUsageQueue1 (initDB 3) [("m", some muA)]) ["a", "m"]) "m").map
          Metric.usage
      = some (MergeUsage (((initDB 3).usage "m").join) (some muA))) ∧
    ListPendingUsage (watchMetricsQueue1
        (watchUsageQueue1 (initDB 3) [("m", some muA)]) ["a", "m"]) "m"
      = none :=
  pendingDrain_amended (initDB 3) "m" muA ["a", "m"] rfl (by decide)
    (by decide)

/-- C1 counterexample to the claim as stated: `m` has never appeared in
a batch and is not in the concrete-metric map (first conjunct), yet
after the usage consumer processes `{m: muB}` and a batch containing `m`
is processed, the metric's usage is not `muB`: its dashboards facet
contains `dashA` (from a usage fact buffered earlier) while
`muB.dashboards` does not. -/
theorem pendingDrain_counterexample :
    ((run 5 [Fact.usageFacts [("m", some muA)]]).metrics "m" = none) ∧
    (((GetMetric (run 5 [Fact.usageFacts [("m", some muA)],
          Fact.usageFacts [("m", some muB)],
          Fact.metricList ["m"]]) "m").bind Metric.usage).map
        (fun mu => mu.dashboards dashA) = some true) ∧
    (muB.dashboards dashA = false) := by
  refine ⟨rfl, by decide, by decide⟩

/-- C2 (amended): over fact sequences that contain no labels facts, no
metric name is simultaneously a key of the pending-usage buffer and a
key of the concrete-metric map with a non-null usage. -/
theorem mutualExclusion_noLabels (t : Nat) (facts : List Fact)
    (h : ∀ f ∈ facts, f.isLabels = false) (M : String) :
    ¬(((run t facts).usage M).isSome = true ∧
      (((run t facts).metrics M).bind Metric.usage).isSome = true) := by
  rintro ⟨h1, h2⟩
  rw [run_pendingExcl t facts h M h1] at h2
  cases h2

/-- Witness for C2 at a concrete no-labels trace. -/
theorem mutualExclusion_noLabels_witness :
    ¬(((run 5 [Fact.usageFacts [("m", some muA)]]).usage "m").isSome = true ∧
      (((run 5 [Fact.usageFacts [("m", some muA)]]).metrics "m").bind
          Metric.usage).isSome = true) :=
  mutualExclusion_noLabels 5 [Fact.usageFacts [("m", some muA)]]
    (fun f hf => by rcases List.mem_singleton.mp hf with rfl; rfl) "m"

/-- C2 counterexample to the claim as stated: buffer usage for an
unknown `m`, let a labels fact create `m`, then process another usage
fact for `m` — afterwards `m` is a pending-buffer key and a
concrete-map key with non-null usage simultaneously. -/
theorem mutualExclusion_counterexample :
    (((run 5 [Fact.usageFacts [("m", some muA)],
        Fact.labelFacts [("m", ["l"])],
        Fact.usageFacts [("m", some muB)]]).usage "m").isSome = true) ∧
    (((run 5 [Fact.usageFacts [("m", some muA)],
        Fact.labelFacts [("m", ["l"])],
        Fact.usageFacts [("m", some muB)]]).metrics "m").bind
          Metric.usage).isSome = true := by
  refine ⟨by decide, by decide⟩

/-- C5 (amended): a concrete metric with a live absence counter (reset
to 0 by the batch that last contained it) that is absent from
`threshold` consecutive batches is deleted by the end of the last of
them (for any threshold in `1..255`); a metric present in every batch
is never deleted. -/
theorem evictionThreshold_amended :
    (∀ (s : DB) (M : String) (bs : List (List String)),
        s.metricLastTimeSeen M = some 0 → 0 < s.threshold →
        s.threshold ≤ 255 → (∀ B ∈ bs, M ∉ B) →
        bs.length = s.threshold →
        (bs.foldl watchMetricsQueue1 s).metrics M = none) ∧
    (∀ (s : DB) (M : String) (bs : List (List String)),
        (s.metrics M).isSome = true → 0 < s.threshold →
        (∀ B ∈ bs, M ∈ B) →
        ((bs.foldl watchMetricsQueue1 s).metrics M).isSome = true) := by
  constructor
  · intro s M bs h0 ht h255 hB hlen
    exact eviction_reaches M bs s 0 h0 hB ht (by omega) (by omega)
  · intro s M bs hM ht hB
    exact never_evicted M bs s hB ht hM

/-- Witness for C5: with threshold 2, a seen metric disappears after
two absent batches and survives batches that contain it. -/
theorem evictionThreshold_amended_witness :
    (([([] : List String), []].foldl watchMetricsQueue1
        (run 2 [Fact.metricList ["m"]])).metrics "m" = none) ∧
    ((([["m"]].foldl watchMetricsQueue1
        (run 2 [Fact.metricList ["m"]])).metrics "m").isSome = true) :=
  ⟨evictionThreshold_amended.1 (run 2 [Fact.metricList ["m"]]) "m"
      [[], []] (by decide) (by decide) (by decide) (by decide) (by decide),
   evictionThreshold_amended.2 (run 2 [Fact.metricList ["m"]]) "m"
      [["m"]] (by decide) (by decide) (by decide)⟩

/-- C5 counterexample to the claim as stated: with threshold 1, a
metric created by the labels consumer has no absence counter, so it
survives a full batch it is absent from instead of being deleted by the
end of that batch. -/
theorem evictionThreshold_counterexample :
    ((run 1 [Fact.labelFacts [("m", ["l"])],
        Fact.metricList []]).metrics "m").isSome = true := by
  decide

/-- C6: in every reachable state each member of a partial metric's
matching set is a key of the concrete-metric map; `DeleteMetric`
returns whether the name was present; and after the internal
`deleteMetric` no partial metric's matching set contains the name. -/
theorem matchingSubset_and_delete :
    (∀ (t : Nat) (facts : List Fact) (p n : String),
        pmContainsAt (run t facts) p n = true →
        ((run t facts).metrics n).isSome = true) ∧
    (∀ (d : DB) (name : String),
        (DeleteMetric d name).1 = (d.metrics name).isSome) ∧
    (∀ (d : DB) (name p : String),
        pmContainsAt (deleteMetric d name) p name = false) := by
  refine ⟨?_, ?_, ?_⟩
  · intro t facts p n hc
    exact run_subsetInv t facts p n hc
  · intro d name
    simp only [DeleteMetric]
    split
    · rename_i h; rw [h]
    · rename_i h
      rw [eqNoneOfNotIsSome h]
      rfl
  · intro d name p
    simp only [pmContainsAt, deleteMetric]
    cases hv : d.partialMetrics p with
    | none => rfl
    | some pm =>
      simp only [Option.map_some']
      exact scrubOne_contains name pm

/-- Witness for C6: the subset invariant instantiated on a trace where
the pattern `foo_${x}` was seeded with the live metric `foo_bar`, plus
the return value of `DeleteMetric` on that state. -/
theorem matchingSubset_and_delete_witness :
    (((run 5 [Fact.metricList ["foo_bar"],
        Fact.partialUsageFacts [("foo_${x}", some muA)]]).metrics
          "foo_bar").isSome = true) ∧
    ((DeleteMetric (run 5 [Fact.metricList ["foo_bar"],
        Fact.partialUsageFacts [("foo_${x}", some muA)]]) "foo_bar").1
      = ((run 5 [Fact.metricList ["foo_bar"],
          Fact.partialUsageFacts [("foo_${x}", some muA)]]).metrics
            "foo_bar").isSome) ∧
    (pmContainsAt (deleteMetric (run 5 [Fact.metricList ["foo_bar"],
        Fact.partialUsageFacts [("foo_${x}", some muA)]]) "foo_bar")
        "foo_${x}" "foo_bar" = false) :=
  ⟨matchingSubset_and_delete.1 5 [Fact.metricList ["foo_bar"],
      Fact.partialUsageFacts [("foo_${x}", some muA)]] "foo_${x}"
      "foo_bar" (by decide),
   matchingSubset_and_delete.2.1 _ "foo_bar",
   matchingSubset_and_delete.2.2 _ "foo_bar" "foo_${x}"⟩

/-- C7 (amended): when the partial-usage consumer creates a partial
metric whose pattern compiles, the seeded matching set contains exactly
the currently-known metric names accepted by the full-string
`MatchString` alone — the findall non-triviality check of `isMatching`
is applied only on the incremental path. -/
theorem seedScan_matchString (s : DB) (pat : String)
    (u : Option MetricUsage) (re : RE)
    (hnew : s.partialMetrics pat = none)
    (hre : generateRegexp pat = .ok (some re)) (m : String) :
    pmContainsAt (partialUsageStep s (pat, u)) pat m
      = ((s.metrics m).isSome && matchString re m) := by
  simp only [pmContainsAt, partialUsageStep, hnew, upd, if_pos rfl]
  simp only [PartialMetric.containsMetric, matchPartialMetric, hre]
  simp

/-- Witness for C7: the seed of `foo_${x}` over a store that knows
`foo_bar`. -/
theorem seedScan_matchString_witness :
    pmContainsAt (partialUsageStep (run 5 [Fact.metricList ["foo_bar"]])
        ("foo_${x}", some muA)) "foo_${x}" "foo_bar"
      = (((run 5 [Fact.metricList ["foo_bar"]]).metrics
            "foo_bar").isSome && matchString reFooVar "foo_bar") :=
  seedScan_matchString (run 5 [Fact.metricList ["foo_bar"]]) "foo_${x}"
    (some muA) reFooVar rfl rfl "foo_bar"

/-- C7 counterexample to the claim as stated: the pattern `foo|`
compiles, its seed scan puts the known metric `bar` into the matching
set (plain `MatchString` accepts it), yet the `isMatching` criterion of
the incremental path rejects `bar` — so the seed is not the set the
claim describes. -/
theorem seedScan_counterexample :
    pmContainsAt (run 5 [Fact.metricList ["bar"],
        Fact.partialUsageFacts [("foo|", some muA)]]) "foo|" "bar"
      = true ∧
    compiledIsMatching "foo|" "bar" = some false := by
  refine ⟨by decide, by decide⟩

/-- C10: a labels fact never modifies the partial-metric map, and no
fact of any kind adds an already-known concrete metric to the matching
set of an already-existing partial metric — so a metric created by the
labels consumer can only ever appear in partial metrics created after
it (by their creation-time seed scan). -/
theorem labelsFrame_noBackfill :
    (∀ (d : DB) (data : List (String × List String)),
        (watchLabelsQueue1 d data).partialMetrics = d.partialMetrics) ∧
    (∀ (d : DB) (f : Fact) (p M : String),
        (d.metrics M).isSome = true →
        (d.partialMetrics p).isSome = true →
        pmContainsAt (applyFact d f) p M = true →
        pmContainsAt d p M = true) :=
  ⟨fun d data => watchLabelsQueue1_partialMetrics data d,
   fun d f p M hM hp hc => applyFact_no_new_matching d f p M hM hp hc⟩

/-- Witness for C10: the labels-created metric `m`, known to the store,
and the pre-existing pattern `foo_${x}`; a batch containing `m` cannot
newly add `m` to the pattern's matching set. -/
theorem labelsFrame_noBackfill_witness :
    (((run 5 [Fact.labelFacts [("m", ["l"])],
        Fact.partialUsageFacts [("foo_${x}", some muA)]]).metrics
          "m").isSome = true) ∧
    ((watchLabelsQueue1 (run 5 [Fact.labelFacts [("m", ["l"])],
        Fact.partialUsageFacts [("foo_${x}", some muA)]])
        [("m2", ["l2"])]).partialMetrics
      = (run 5 [Fact.labelFacts [("m", ["l"])],
          Fact.partialUsageFacts [("foo_${x}", some muA)]]).partialMetrics) ∧
    (pmContainsAt (applyFact (run 5 [Fact.labelFacts [("m", ["l"])],
          Fact.partialUsageFacts [("foo_${x}", some muA)]])
          (.metricList ["m"])) "foo_${x}" "m" = true →
      pmContainsAt (run 5 [Fact.labelFacts [("m", ["l"])],
          Fact.partialUsageFacts [("foo_${x}", some muA)]])
          "foo_${x}" "m" = true) :=
  ⟨by decide,
   labelsFrame_noBackfill.1 _ [("m2", ["l2"])],
   fun hc => labelsFrame_noBackfill.2 _ (.metricList ["m"]) "foo_${x}" "m"
      (by decide) (by decide) hc⟩

end MetricsUsage
